import Mathlib

/-!
Verification of the Match Outcome Analytics Engine of the oraladder web
application (`ladderweb/__init__.py`).  The Python functions are shallowly
embedded as executable Lean definitions: SQL query results are passed in as
explicit lists of rows, machine floats become exact rationals, Python
exceptions become `Option` results (`none` = the call raises), and dates are
represented by their proleptic-Gregorian ordinals (as produced by Python's
`date.toordinal`), so that adding one day is adding 1.
-/

namespace Ladderweb

/-! ## Time-series resampler (`_scaled`)

`_scaled(a, m)` computes `round(np.interp(x*n/m for x in range(m), range(n), a))`.
`np.interp` evaluates the piecewise-linear interpolant through the points
`(i, a[i])`; query positions below 0 yield `a[0]` and positions at or above
`n-1` yield `a[n-1]` (clamping, no extrapolation).  Python's `round` (and
numpy's) rounds halves to the nearest even integer. -/

/-- Python `round`: nearest integer, ties to even. -/
def pyRound (q : ℚ) : ℤ :=
  if q - ⌊q⌋ < 1/2 then ⌊q⌋
  else if 1/2 < q - ⌊q⌋ then ⌊q⌋ + 1
  else if ⌊q⌋ % 2 = 0 then ⌊q⌋ else ⌊q⌋ + 1

/-- `np.interp` at a single query position `x`, with sample positions
`0, 1, …, a.length - 1` and sample values `a` (out-of-range queries clamp to
the first/last sample). -/
def interpAt (a : List ℚ) (x : ℚ) : ℚ :=
  if x ≤ 0 then a.headD 0
  else if ((a.length : ℚ) - 1) ≤ x then a.getLastD 0
  else
    a.getD (⌊x⌋).toNat 0 +
      (x - (((⌊x⌋).toNat : ℕ) : ℚ)) * (a.getD ((⌊x⌋).toNat + 1) 0 - a.getD (⌊x⌋).toNat 0)

/-- `_scaled(a, m)`: evaluate the interpolant at the `m` positions `i*n/m`
for `i = 0 .. m-1` and round each value. -/
def scaled (a : List ℚ) (m : ℕ) : List ℤ :=
  (List.range m).map (fun (i : ℕ) => pyRound (interpAt a (((i : ℚ) * (a.length : ℚ)) / (m : ℚ))))

/-- C1 counterexample: the spec predicts `[0, 25, 50, 75, 100]` for
`_scaled([0, 100], 5)`, but the code evaluates the interpolant at positions
`0, 0.4, 0.8, 1.2, 1.6` over the domain `[0, 1]`, so it does not produce
that list. -/
theorem C1_counterexample : scaled [0, 100] 5 ≠ [0, 25, 50, 75, 100] := by
  norm_num [scaled, interpAt, pyRound, List.range_succ]

/-- C1 (amended): `_scaled([0, 100], 5)` evaluates the interpolant at the
query positions `i*n/m = 0, 0.4, 0.8, 1.2, 1.6`; the positions `1.2` and
`1.6` lie beyond the last sample position `n - 1 = 1` and clamp to the last
value, so the output is `[0, 40, 80, 100, 100]`. -/
theorem C1_amended : scaled [0, 100] 5 = [0, 40, 80, 100, 100] := by
  norm_num [scaled, interpAt, pyRound, List.range_succ]

/-! ### Resampler invariants (claim C10) -/

/-- Minimum of a list of rationals, `0` for the empty list. -/
def listMin : List ℚ → ℚ
  | [] => 0
  | x :: xs => xs.foldl min x

/-- Maximum of a list of rationals, `0` for the empty list. -/
def listMax : List ℚ → ℚ
  | [] => 0
  | x :: xs => xs.foldl max x

theorem foldl_min_le_init (xs : List ℚ) : ∀ b : ℚ, xs.foldl min b ≤ b := by
  induction xs with
  | nil => intro b; simp
  | cons x xs ih =>
    intro b
    calc (x :: xs).foldl min b = xs.foldl min (min b x) := rfl
    _ ≤ min b x := ih (min b x)
    _ ≤ b := min_le_left b x

theorem foldl_min_le_mem (xs : List ℚ) : ∀ b y : ℚ, y ∈ xs → xs.foldl min b ≤ y := by
  induction xs with
  | nil => intro b y hy; simp at hy
  | cons x xs ih =>
    intro b y hy
    rcases List.mem_cons.mp hy with rfl | hy
    · calc (y :: xs).foldl min b = xs.foldl min (min b y) := rfl
      _ ≤ min b y := foldl_min_le_init xs (min b y)
      _ ≤ y := min_le_right b y
    · exact ih (min b x) y hy

theorem init_le_foldl_max (xs : List ℚ) : ∀ b : ℚ, b ≤ xs.foldl max b := by
  induction xs with
  | nil => intro b; simp
  | cons x xs ih =>
    intro b
    calc b ≤ max b x := le_max_left b x
    _ ≤ xs.foldl max (max b x) := ih (max b x)
    _ = (x :: xs).foldl max b := rfl

theorem mem_le_foldl_max (xs : List ℚ) : ∀ b y : ℚ, y ∈ xs → y ≤ xs.foldl max b := by
  induction xs with
  | nil => intro b y hy; simp at hy
  | cons x xs ih =>
    intro b y hy
    rcases List.mem_cons.mp hy with rfl | hy
    · calc y ≤ max b y := le_max_right b y
      _ ≤ xs.foldl max (max b y) := init_le_foldl_max xs (max b y)
      _ = (y :: xs).foldl max b := rfl
    · exact ih (max b x) y hy

theorem listMin_le_mem {a : List ℚ} {y : ℚ} (hy : y ∈ a) : listMin a ≤ y := by
  cases a with
  | nil => simp at hy
  | cons x xs =>
    rcases List.mem_cons.mp hy with rfl | hy
    · exact foldl_min_le_init xs y
    · exact foldl_min_le_mem xs x y hy

theorem mem_le_listMax {a : List ℚ} {y : ℚ} (hy : y ∈ a) : y ≤ listMax a := by
  cases a with
  | nil => simp at hy
  | cons x xs =>
    rcases List.mem_cons.mp hy with rfl | hy
    · exact init_le_foldl_max xs y
    · exact mem_le_foldl_max xs x y hy

theorem pyRound_bounds (q : ℚ) : ⌊q⌋ ≤ pyRound q ∧ pyRound q ≤ ⌊q⌋ + 1 := by
  unfold pyRound
  split_ifs <;> omega

theorem pyRound_mono {q r : ℚ} (h : q ≤ r) : pyRound q ≤ pyRound r := by
  have hf : ⌊q⌋ ≤ ⌊r⌋ := Int.floor_le_floor h
  rcases eq_or_lt_of_le hf with heq | hlt
  · have hcast : ((⌊q⌋ : ℚ)) = ((⌊r⌋ : ℚ)) := by exact_mod_cast heq
    have hfr : q - (⌊q⌋ : ℚ) ≤ r - (⌊r⌋ : ℚ) := by linarith
    unfold pyRound
    split_ifs <;> first | omega | linarith
  · have h1 := (pyRound_bounds q).2
    have h2 := (pyRound_bounds r).1
    omega

theorem getLastD_mem (xs : List ℚ) : ∀ x : ℚ, xs.getLastD x ∈ x :: xs := by
  induction xs with
  | nil => intro x; simp
  | cons y ys ih =>
    intro x
    rw [List.getLastD_cons]
    exact List.mem_cons_of_mem x (ih y)

/-- Every value of the interpolant lies between the minimum and maximum of
the (nonempty) sample list: out-of-domain queries clamp to the endpoints and
in-domain queries are convex combinations of two adjacent samples. -/
theorem interpAt_bounds (a : List ℚ) (ha : a ≠ []) (x : ℚ) :
    listMin a ≤ interpAt a x ∧ interpAt a x ≤ listMax a := by
  obtain ⟨y, ys, rfl⟩ := List.exists_cons_of_ne_nil ha
  unfold interpAt
  split_ifs with h0 h1
  · exact ⟨listMin_le_mem (List.mem_cons_self y ys), mem_le_listMax (List.mem_cons_self y ys)⟩
  · have hmem : (y :: ys).getLastD 0 ∈ y :: ys := by
      rw [List.getLastD_cons]; exact getLastD_mem ys y
    exact ⟨listMin_le_mem hmem, mem_le_listMax hmem⟩
  · have hx0 : 0 < x := lt_of_not_le h0
    have hxlt : x < ((y :: ys).length : ℚ) - 1 := lt_of_not_le h1
    have hfl0 : 0 ≤ ⌊x⌋ := Int.floor_nonneg.mpr (le_of_lt hx0)
    have hcast : ((((⌊x⌋).toNat : ℕ)) : ℚ) = ((⌊x⌋ : ℤ) : ℚ) := by
      exact_mod_cast congrArg (fun z : ℤ => (z : ℚ)) (Int.toNat_of_nonneg hfl0)
    set k : ℕ := (⌊x⌋).toNat with hk
    have hkx : (k : ℚ) ≤ x := by rw [hcast]; exact Int.floor_le x
    have hxk1 : x < (k : ℚ) + 1 := by rw [hcast]; exact Int.lt_floor_add_one x
    have hk1lt : k + 1 < (y :: ys).length := by
      have : (k : ℚ) < ((y :: ys).length : ℚ) - 1 := lt_of_le_of_lt hkx hxlt
      have : (k : ℚ) + 1 < ((y :: ys).length : ℚ) := by linarith
      exact_mod_cast this
    have hklt : k < (y :: ys).length := Nat.lt_of_succ_lt hk1lt
    have hgd : (y :: ys).getD k 0 = (y :: ys).get ⟨k, hklt⟩ := List.getD_eq_get _ 0 hklt
    have hgd1 : (y :: ys).getD (k + 1) 0 = (y :: ys).get ⟨k + 1, hk1lt⟩ :=
      List.getD_eq_get _ 0 hk1lt
    have hmem : (y :: ys).get ⟨k, hklt⟩ ∈ y :: ys := List.get_mem _ _ hklt
    have hmem1 : (y :: ys).get ⟨k + 1, hk1lt⟩ ∈ y :: ys := List.get_mem _ _ hk1lt
    rw [hgd, hgd1]
    set ak := (y :: ys).get ⟨k, hklt⟩
    set ak1 := (y :: ys).get ⟨k + 1, hk1lt⟩
    have hmin : listMin (y :: ys) ≤ ak := listMin_le_mem hmem
    have hmin1 : listMin (y :: ys) ≤ ak1 := listMin_le_mem hmem1
    have hmax : ak ≤ listMax (y :: ys) := mem_le_listMax hmem
    have hmax1 : ak1 ≤ listMax (y :: ys) := mem_le_listMax hmem1
    have ht0 : 0 ≤ x - (k : ℚ) := by linarith
    have ht1 : x - (k : ℚ) ≤ 1 := by linarith
    constructor
    · nlinarith [mul_nonneg ht0 (sub_nonneg.mpr hmin1),
        mul_nonneg (by linarith : (0 : ℚ) ≤ 1 - (x - (k : ℚ))) (sub_nonneg.mpr hmin)]
    · nlinarith [mul_nonneg ht0 (sub_nonneg.mpr hmax1),
        mul_nonneg (by linarith : (0 : ℚ) ≤ 1 - (x - (k : ℚ))) (sub_nonneg.mpr hmax)]

/-- C10: for a nonempty input `a` and target length `m ≥ 1`, `_scaled(a, m)`
has length exactly `m`, its first element is the rounding of `a`'s first
element, and every output element lies between the roundings of `a`'s
minimum and maximum (out-of-domain query positions clamp to the endpoints,
so no value is ever extrapolated outside the sample range). -/
theorem C10_resampler_invariants (a : List ℚ) (m : ℕ) (ha : a ≠ []) (hm : 1 ≤ m) :
    (scaled a m).length = m ∧
    (scaled a m).head? = some (pyRound (a.headD 0)) ∧
    ∀ v ∈ scaled a m, pyRound (listMin a) ≤ v ∧ v ≤ pyRound (listMax a) := by
  refine ⟨by simp only [scaled, List.length_map, List.length_range], ?_, ?_⟩
  · obtain ⟨k, rfl⟩ : ∃ k, m = k + 1 := ⟨m - 1, by omega⟩
    have h0 : interpAt a ((((0 : ℕ) : ℚ)) * ((a.length : ℚ)) / (((k + 1 : ℕ)) : ℚ)) =
        a.headD 0 := by
      have hz : (((0 : ℕ) : ℚ)) * ((a.length : ℚ)) / (((k + 1 : ℕ)) : ℚ) = 0 := by norm_num
      rw [hz]
      unfold interpAt
      simp
    have hh : (scaled a (k + 1)).head? =
        some (pyRound (interpAt a ((((0 : ℕ) : ℚ)) * ((a.length : ℚ)) / (((k + 1 : ℕ)) : ℚ)))) := by
      unfold scaled
      rw [List.range_succ_eq_map]
      rfl
    rw [hh, h0]
  · intro v hv
    obtain ⟨i, _, rfl⟩ := List.mem_map.mp hv
    have hb := interpAt_bounds a ha (((i : ℚ)) * ((a.length : ℚ)) / ((m : ℚ)))
    exact ⟨pyRound_mono hb.1, pyRound_mono hb.2⟩

/-- C10 witness: the invariants instantiated at `a = [0, 100]`, `m = 4`
(where `_scaled` yields `[0, 50, 100, 100]`, so `50` is an output element). -/
theorem C10_witness :
    (scaled [0, 100] 4).length = 4 ∧
    (scaled [0, 100] 4).head? = some (pyRound (([0, 100] : List ℚ).headD 0)) ∧
    pyRound (listMin [0, 100]) ≤ 50 ∧ (50 : ℤ) ≤ pyRound (listMax [0, 100]) := by
  have h := C10_resampler_invariants [0, 100] 4 (by simp) (by norm_num)
  have hmem : (50 : ℤ) ∈ scaled [0, 100] 4 := by
    have hs : scaled [0, 100] 4 = [0, 50, 100, 100] := by
      norm_num [scaled, interpAt, pyRound, List.range_succ]
    rw [hs]; simp
  exact ⟨h.1, h.2.1, (h.2.2 50 hmem).1, (h.2.2 50 hmem).2⟩

/-! ## Map-title display stripping (`_stripped_map_name`, claim C8)

`_stripped_map_name` applies `re.sub(r'\s*\[[^\]]*\]', '', map_name).strip()`.
The regex scanner is modelled on `List Char`: at each position, a match
consumes a maximal run of whitespace, an opening bracket, all characters up
to and including the next closing bracket; matched spans are deleted,
unmatched characters are kept.  (The model covers the ASCII whitespace
characters of Python's `\s`.) -/

/-- The six ASCII characters matched by Python's `\s` and stripped by
`str.strip()`. -/
def isPySpace (c : Char) : Bool :=
  c = ' ' || c = '\t' || c = '\n' || c = '\r' || c = '\x0b' || c = '\x0c'

/-- Consume characters up to and including the first closing bracket
(the `[^\]]*\]` part of the regex); `none` when no `]` remains. -/
def afterCloseBracket : List Char → Option (List Char)
  | [] => none
  | c :: rest => if c = ']' then some rest else afterCloseBracket rest

/-- Head-anchored part of the tag pattern after the whitespace run:
`\[[^\]]*\]`. -/
def tryTagCore : List Char → Option (List Char)
  | [] => none
  | c :: rest => if c = '[' then afterCloseBracket rest else none

/-- Try to match `\s*\[[^\]]*\]` at the head of `cs`; on success return the
remainder of the string after the match. -/
def tryTag (cs : List Char) : Option (List Char) :=
  tryTagCore (cs.dropWhile isPySpace)

theorem afterCloseBracket_length :
    ∀ cs rest, afterCloseBracket cs = some rest → rest.length < cs.length := by
  intro cs
  induction cs with
  | nil => intro rest h; exact absurd h (by simp [afterCloseBracket])
  | cons c cs ih =>
    intro rest h
    unfold afterCloseBracket at h
    split_ifs at h with hc
    · injection h with h2
      rw [← h2]
      simp
    · exact Nat.lt_trans (ih rest h) (by simp)

theorem afterCloseBracket_suffix :
    ∀ cs rest, afterCloseBracket cs = some rest → rest <:+ cs := by
  intro cs
  induction cs with
  | nil => intro rest h; exact absurd h (by simp [afterCloseBracket])
  | cons c cs ih =>
    intro rest h
    unfold afterCloseBracket at h
    split_ifs at h with hc
    · injection h with h2
      rw [← h2]
      exact List.suffix_cons c cs
    · exact (ih rest h).trans (List.suffix_cons c cs)

theorem afterCloseBracket_none :
    ∀ cs, afterCloseBracket cs = none → ']' ∉ cs := by
  intro cs
  induction cs with
  | nil => intro _; simp
  | cons c cs ih =>
    intro h hmem
    unfold afterCloseBracket at h
    split_ifs at h with hc
    rcases List.mem_cons.mp hmem with heq | hmem
    · exact hc heq.symm
    · exact ih h hmem

theorem afterCloseBracket_some_mem :
    ∀ cs rest, afterCloseBracket cs = some rest → ']' ∈ cs := by
  intro cs
  induction cs with
  | nil => intro rest h; exact absurd h (by simp [afterCloseBracket])
  | cons c cs ih =>
    intro rest h
    unfold afterCloseBracket at h
    split_ifs at h with hc
    · subst hc; simp
    · exact List.mem_cons_of_mem c (ih rest h)

theorem tryTag_some_length {cs rest : List Char} (h : tryTag cs = some rest) :
    rest.length < cs.length := by
  unfold tryTag at h
  cases hd : cs.dropWhile isPySpace with
  | nil => rw [hd] at h; exact absurd h (by simp [tryTagCore])
  | cons c cs2 =>
    rw [hd] at h
    simp only [tryTagCore] at h
    split_ifs at h with hc
    · have h1 : rest.length < cs2.length := afterCloseBracket_length cs2 rest h
      have h2 : (c :: cs2).length ≤ cs.length := by
        have hle := (List.dropWhile_suffix (l := cs) isPySpace).sublist.length_le
        rw [hd] at hle
        exact hle
      simp only [List.length_cons] at h2
      omega

theorem tryTag_some_suffix {cs rest : List Char} (h : tryTag cs = some rest) :
    rest <:+ cs := by
  unfold tryTag at h
  cases hd : cs.dropWhile isPySpace with
  | nil => rw [hd] at h; exact absurd h (by simp [tryTagCore])
  | cons c cs2 =>
    rw [hd] at h
    simp only [tryTagCore] at h
    split_ifs at h with hc
    · have h1 : rest <:+ cs2 := afterCloseBracket_suffix cs2 rest h
      have h2 : c :: cs2 <:+ cs := by
        rw [← hd]; exact List.dropWhile_suffix isPySpace
      exact (h1.trans (List.suffix_cons c cs2)).trans h2

/-- `re.sub(r'\s*\[[^\]]*\]', '', ·)`: scan left to right; where the tag
pattern matches, delete the match and resume after it, otherwise keep one
character and move on. -/
def subTags (cs : List Char) : List Char :=
  match h : tryTag cs with
  | some rest => subTags rest
  | none =>
    match cs with
    | [] => []
    | c :: cs2 => c :: subTags cs2
termination_by cs.length
decreasing_by
  · exact tryTag_some_length h
  · simp

/-- Python `str.strip()`: remove leading and trailing whitespace. -/
def pyStrip (cs : List Char) : List Char :=
  ((cs.dropWhile isPySpace).reverse.dropWhile isPySpace).reverse

/-- `_stripped_map_name`, on the character list of the title. -/
def strippedMapName (cs : List Char) : List Char :=
  pyStrip (subTags cs)

/-- `true` iff the string still contains a bracketed span, i.e. an `[`
with some `]` after it (exactly the strings on which the tag regex can
match somewhere). -/
def hasTag : List Char → Bool
  | [] => false
  | c :: cs => (c = '[' && cs.contains ']') || hasTag cs

theorem contains_iff_mem {cs : List Char} {c : Char} : cs.contains c = true ↔ c ∈ cs := by
  simp [List.contains, List.elem_iff]

theorem subTags_eq_of_some {cs rest : List Char} (h : tryTag cs = some rest) :
    subTags cs = subTags rest := by
  rw [subTags.eq_def]
  split
  · rename_i rest2 h2
    rw [h2] at h
    injection h with h3
    rw [h3]
  · rename_i h2
    rw [h] at h2
    cases h2

theorem subTags_nil : subTags [] = [] := by
  rw [subTags.eq_def]
  rfl

theorem subTags_cons_none {c : Char} {cs2 : List Char} (h : tryTag (c :: cs2) = none) :
    subTags (c :: cs2) = c :: subTags cs2 := by
  rw [subTags.eq_def]
  split
  · rename_i rest h2
    rw [h] at h2
    cases h2
  · rfl

theorem subTags_sublist : ∀ cs, List.Sublist (subTags cs) cs := by
  intro cs
  induction cs using subTags.induct with
  | case1 x rest h ih =>
    rw [subTags_eq_of_some h]
    exact ih.trans (tryTag_some_suffix h).sublist
  | case2 _ _ =>
    rw [subTags_nil]
  | case3 c cs2 h _ ih =>
    rw [subTags_cons_none h]
    exact List.cons_sublist_cons.mpr ih

theorem hasTag_of_sublist {l1 l2 : List Char} (h : List.Sublist l1 l2) :
    hasTag l1 = true → hasTag l2 = true := by
  induction h with
  | slnil => exact fun h2 => h2
  | cons a h ih =>
    intro h2
    simp only [hasTag, Bool.or_eq_true]
    exact Or.inr (ih h2)
  | cons₂ a h ih =>
    intro h2
    simp only [hasTag, Bool.or_eq_true, Bool.and_eq_true] at h2 ⊢
    rcases h2 with ⟨ha, hc⟩ | h2
    · exact Or.inl ⟨ha, contains_iff_mem.mpr (h.subset (contains_iff_mem.mp hc))⟩
    · exact Or.inr (ih h2)

theorem tryTag_none_of_hasTag_false {cs : List Char} (hft : hasTag cs = false) :
    tryTag cs = none := by
  cases htt : tryTag cs with
  | none => rfl
  | some rest =>
    exfalso
    unfold tryTag at htt
    cases hd : cs.dropWhile isPySpace with
    | nil => rw [hd] at htt; simp [tryTagCore] at htt
    | cons c cs2 =>
      rw [hd] at htt
      simp only [tryTagCore] at htt
      split_ifs at htt with hc
      subst hc
      have hmem : ']' ∈ cs2 := afterCloseBracket_some_mem cs2 rest htt
      have hsub : List.Sublist ('[' :: cs2) cs := by
        rw [← hd]
        exact (List.dropWhile_suffix isPySpace).sublist
      have htag : hasTag ('[' :: cs2) = true := by
        simp [hasTag]
        exact Or.inl hmem
      have := hasTag_of_sublist hsub htag
      rw [hft] at this
      cases this

theorem hasTag_subTags : ∀ cs, hasTag (subTags cs) = false := by
  intro cs
  induction cs using subTags.induct with
  | case1 x rest h ih =>
    rw [subTags_eq_of_some h]
    exact ih
  | case2 _ _ =>
    rw [subTags_nil]
    rfl
  | case3 c cs2 h _ ih =>
    rw [subTags_cons_none h]
    by_cases hc : c = '['
    · subst hc
      have hnone : afterCloseBracket cs2 = none := by
        unfold tryTag at h
        have hdw : ('[' :: cs2).dropWhile isPySpace = '[' :: cs2 := by
          rw [List.dropWhile_cons]
          simp [isPySpace]
        rw [hdw] at h
        simp only [tryTagCore] at h
        simpa using h
      have hnm : ']' ∉ cs2 := afterCloseBracket_none cs2 hnone
      have hnm2 : ']' ∉ subTags cs2 := fun hm => hnm ((subTags_sublist cs2).subset hm)
      have hcontains : (subTags cs2).contains ']' = false := by
        rcases Bool.eq_false_or_eq_true ((subTags cs2).contains ']') with hh | hh
        · exact absurd (contains_iff_mem.mp hh) hnm2
        · exact hh
      simp [hasTag, hcontains, ih]
      exact hnm2
    · simp [hasTag, hc, ih]

theorem subTags_eq_self_of_hasTag_false : ∀ cs, hasTag cs = false → subTags cs = cs := by
  intro cs
  induction cs with
  | nil => intro _; exact subTags_nil
  | cons c cs2 ih =>
    intro hft
    rw [subTags_cons_none (tryTag_none_of_hasTag_false hft)]
    have h2 : hasTag cs2 = false := by
      simp only [hasTag, Bool.or_eq_false_iff] at hft
      exact hft.2
    rw [ih h2]

theorem dropWhile_eq_self_of_head (p : Char → Bool) (l : List Char)
    (h : ∀ c, l.head? = some c → p c = false) : l.dropWhile p = l := by
  cases l with
  | nil => rfl
  | cons c cs =>
    rw [List.dropWhile_cons]
    simp [h c rfl]

theorem head_dropWhile_false (p : Char → Bool) (l : List Char) :
    ∀ c, (l.dropWhile p).head? = some c → p c = false := by
  induction l with
  | nil => intro c h; cases h
  | cons a l ih =>
    intro c h
    rw [List.dropWhile_cons] at h
    by_cases hp : p a = true
    · rw [if_pos hp] at h
      exact ih c h
    · rw [if_neg hp] at h
      injection h with h2
      rw [← h2]
      exact Bool.not_eq_true (p a) |>.mp hp

theorem pyStrip_sublist (l : List Char) : List.Sublist (pyStrip l) l := by
  unfold pyStrip
  have h1 : List.Sublist (l.dropWhile isPySpace) l :=
    (List.dropWhile_suffix isPySpace).sublist
  have h2 : List.Sublist ((l.dropWhile isPySpace).reverse.dropWhile isPySpace)
      (l.dropWhile isPySpace).reverse :=
    (List.dropWhile_suffix isPySpace).sublist
  have h3 := h2.reverse
  rw [List.reverse_reverse] at h3
  exact h3.trans h1

theorem pyStrip_idem (l : List Char) : pyStrip (pyStrip l) = pyStrip l := by
  have hstep2 :
      ((l.dropWhile isPySpace).reverse.dropWhile isPySpace).dropWhile isPySpace =
        (l.dropWhile isPySpace).reverse.dropWhile isPySpace :=
    dropWhile_eq_self_of_head _ _ (head_dropWhile_false isPySpace (l.dropWhile isPySpace).reverse)
  have hstep1 :
      ((l.dropWhile isPySpace).reverse.dropWhile isPySpace).reverse.dropWhile isPySpace =
        ((l.dropWhile isPySpace).reverse.dropWhile isPySpace).reverse := by
    apply dropWhile_eq_self_of_head
    intro c hc
    rw [List.head?_reverse] at hc
    obtain ⟨t, ht⟩ := List.dropWhile_suffix (l := (l.dropWhile isPySpace).reverse) isPySpace
    cases hB : (l.dropWhile isPySpace).reverse.dropWhile isPySpace with
    | nil => rw [hB] at hc; cases hc
    | cons d ds =>
      rw [hB] at hc ht
      have hlast : (t ++ d :: ds).getLast? = (d :: ds).getLast? :=
        List.getLast?_append_of_ne_nil t (by simp)
      have h4 : (List.dropWhile isPySpace l).head? = some c := by
        rw [← List.getLast?_reverse (List.dropWhile isPySpace l), ← ht, hlast, hc]
      exact head_dropWhile_false isPySpace l c h4
  calc pyStrip (pyStrip l)
      = (((((l.dropWhile isPySpace).reverse.dropWhile isPySpace).reverse).dropWhile
          isPySpace).reverse.dropWhile isPySpace).reverse := rfl
    _ = ((((l.dropWhile isPySpace).reverse.dropWhile isPySpace).reverse).reverse.dropWhile
          isPySpace).reverse := by rw [hstep1]
    _ = (((l.dropWhile isPySpace).reverse.dropWhile isPySpace).dropWhile isPySpace).reverse := by
          rw [List.reverse_reverse]
    _ = ((l.dropWhile isPySpace).reverse.dropWhile isPySpace).reverse := by rw [hstep2]
    _ = pyStrip l := rfl

theorem hasTag_false_of_sublist {l1 l2 : List Char} (h : List.Sublist l1 l2)
    (h2 : hasTag l2 = false) : hasTag l1 = false := by
  rcases Bool.eq_false_or_eq_true (hasTag l1) with hh | hh
  · rw [hasTag_of_sublist h hh] at h2
    cases h2
  · exact hh

/-- C8: `_stripped_map_name` is idempotent, its output contains no bracketed
tag (no `[` with a later `]`, i.e. the tag regex matches nowhere in the
output), and its output carries no surrounding whitespace (stripping it
again changes nothing). -/
theorem C8_strip_idempotent (s : List Char) :
    strippedMapName (strippedMapName s) = strippedMapName s ∧
    hasTag (strippedMapName s) = false ∧
    pyStrip (strippedMapName s) = strippedMapName s := by
  have h1 : hasTag (subTags s) = false := hasTag_subTags s
  have h2 : hasTag (pyStrip (subTags s)) = false :=
    hasTag_false_of_sublist (pyStrip_sublist (subTags s)) h1
  refine ⟨?_, h2, pyStrip_idem (subTags s)⟩
  show pyStrip (subTags (pyStrip (subTags s))) = pyStrip (subTags s)
  rw [subTags_eq_self_of_hasTag_false (pyStrip (subTags s)) h2, pyStrip_idem]

/-! ## Leaderboard (`leaderboard_js`, claims C4 and C7)

The `players` table row, as read by the leaderboard query.  Ratings are
modelled as exact rationals.  The query
`SELECT ... FROM players WHERE rating > 0 AND NOT banned ORDER BY rating DESC`
is modelled as a filter followed by a stable descending sort, and the
Python loop `for i, (...) in enumerate(cur, 1)` as `mkRows 1`.  The
expression `wins / (wins + losses) * 100` raises `ZeroDivisionError` when
`wins + losses = 0`, which is modelled by returning `none`. -/

structure Player where
  profile_id : ℕ
  profile_name : String
  avatar_url : String
  wins : ℕ
  losses : ℕ
  prv_rating : ℚ
  rating : ℚ
  banned : Bool
deriving DecidableEq

/-- `WHERE rating > 0 AND NOT banned`. -/
def rankablePlayers (players : List Player) : List Player :=
  players.filter (fun p => decide (0 < p.rating) && !p.banned)

/-- The comparison of `ORDER BY rating DESC`. -/
def ratingGE (p q : Player) : Prop := q.rating ≤ p.rating

instance : DecidableRel ratingGE := fun p q => inferInstanceAs (Decidable (q.rating ≤ p.rating))

instance : IsTotal Player ratingGE := ⟨fun p q => le_total q.rating p.rating⟩

instance : IsTrans Player ratingGE := ⟨fun _ _ _ hab hbc => le_trans hbc hab⟩

/-- One emitted leaderboard row (URL fields of the original dict, which only
involve HTTP routing, are omitted). -/
structure Row where
  row_id : ℕ
  name : String
  avatar_url : String
  rating_value : ℚ
  rating_diff : ℚ
  played : ℕ
  wins : ℕ
  losses : ℕ
  winrate : ℚ
deriving DecidableEq

/-- The dict built for one player at 1-based position `i`. -/
def mkRow (i : ℕ) (p : Player) : Row :=
  { row_id := i
    name := p.profile_name
    avatar_url := p.avatar_url
    rating_value := p.rating
    rating_diff := p.rating - p.prv_rating
    played := p.wins + p.losses
    wins := p.wins
    losses := p.losses
    winrate := ((p.wins : ℚ) / ((p.wins : ℚ) + (p.losses : ℚ))) * 100 }

/-- Build the rows for the already-sorted player list, numbering from
`start`; `none` models the `ZeroDivisionError` raised by
`wins / (wins + losses)` on a zero-played player. -/
def mkRows : ℕ → List Player → Option (List Row)
  | _, [] => some []
  | i, p :: ps =>
    if p.wins + p.losses = 0 then none
    else
      match mkRows (i + 1) ps with
      | none => none
      | some rows => some (mkRow i p :: rows)

/-- `leaderboard_js`: filter to rankable players, sort descending by rating
(stable), emit enumerated rows. -/
def leaderboardRows (players : List Player) : Option (List Row) :=
  mkRows 1 (List.insertionSort ratingGE (rankablePlayers players))

/-- A rankable player with a seeded rating and no games yet. -/
def zeroPlayedPlayer : Player :=
  { profile_id := 7
    profile_name := "Newcomer"
    avatar_url := ""
    wins := 0
    losses := 0
    prv_rating := 1500
    rating := 1500
    banned := false }

/-- C4, failing input: a rankable player (rating 1500 > 0, not banned) with
`wins = losses = 0` makes `leaderboard_js` raise `ZeroDivisionError` in
`wins / (wins + losses) * 100` instead of emitting a guarded win rate. -/
theorem C4_zero_played_crashes : leaderboardRows [zeroPlayedPlayer] = none := by
  norm_num [leaderboardRows, rankablePlayers, zeroPlayedPlayer, mkRows,
    List.insertionSort, List.orderedInsert]

/-- Claim C7 exactly as stated: among emitted rows, `rank(p) ≤ rank(q)`
whenever `rating(p) ≥ rating(q)`. -/
def claimC7 (players : List Player) : Prop :=
  ∀ rows, leaderboardRows players = some rows →
    ∀ i j (hi : i < rows.length) (hj : j < rows.length),
      (rows.get ⟨j, hj⟩).rating_value ≤ (rows.get ⟨i, hi⟩).rating_value →
      (rows.get ⟨i, hi⟩).row_id ≤ (rows.get ⟨j, hj⟩).row_id

def tiePlayerA : Player :=
  { profile_id := 1
    profile_name := "A"
    avatar_url := ""
    wins := 1
    losses := 0
    prv_rating := 5
    rating := 5
    banned := false }

def tiePlayerB : Player :=
  { profile_id := 2
    profile_name := "B"
    avatar_url := ""
    wins := 1
    losses := 0
    prv_rating := 5
    rating := 5
    banned := false }

theorem leaderboard_tie_rows :
    leaderboardRows [tiePlayerA, tiePlayerB] =
      some [mkRow 1 tiePlayerA, mkRow 2 tiePlayerB] := by
  norm_num [leaderboardRows, rankablePlayers, tiePlayerA, tiePlayerB, mkRows,
    List.insertionSort, List.orderedInsert, ratingGE]

/-- C7 counterexample: two rankable players with equal rating 5 receive
distinct 1-based ranks 1 and 2, so the pair `p` = the rank-2 row, `q` = the
rank-1 row has `rating(p) ≥ rating(q)` but `rank(p) > rank(q)`: the claim
as stated fails whenever two emitted players tie on rating. -/
theorem C7_counterexample : ¬ claimC7 [tiePlayerA, tiePlayerB] := by
  intro h
  have h2 := h [mkRow 1 tiePlayerA, mkRow 2 tiePlayerB] leaderboard_tie_rows
    1 0 (by norm_num) (by norm_num)
    (by norm_num [mkRow, tiePlayerA, tiePlayerB])
  norm_num [mkRow, tiePlayerA, tiePlayerB] at h2

theorem mkRows_eq (ps : List Player) :
    ∀ start rows, mkRows start ps = some rows →
      rows.length = ps.length ∧
      ∀ i (hi : i < rows.length) (hp : i < ps.length),
        rows.get ⟨i, hi⟩ = mkRow (start + i) (ps.get ⟨i, hp⟩) := by
  induction ps with
  | nil =>
    intro start rows h
    injection h with h2
    rw [← h2]
    exact ⟨rfl, fun i hi => absurd hi (by simp)⟩
  | cons p ps ih =>
    intro start rows h
    unfold mkRows at h
    split_ifs at h
    cases hm : mkRows (start + 1) ps with
    | none => rw [hm] at h; cases h
    | some rs =>
      rw [hm] at h
      injection h with h2
      obtain ⟨hlen, hget⟩ := ih (start + 1) rs hm
      rw [← h2]
      refine ⟨by simp [hlen], ?_⟩
      intro i hi hp
      cases i with
      | zero => simp [mkRow]
      | succ i2 =>
        have hi2 : i2 < rs.length := by simp at hi; omega
        have hp2 : i2 < ps.length := by simp at hp; omega
        have := hget i2 hi2 hp2
        simp only [List.get_cons_succ]
        rw [this]
        congr 1
        omega

/-- C7 (amended): the emitted rows are in non-increasing rating order with
1-based consecutive rank positions (hence `rank(p) < rank(q)` whenever
`rating(p) > rating(q)`, ties receiving adjacent distinct ranks), and every
emitted row is built from some input player that is not banned and has
positive rating. -/
theorem C7_leaderboard_order (players : List Player) (rows : List Row)
    (h : leaderboardRows players = some rows) :
    (∀ i j (hi : i < rows.length) (hj : j < rows.length), i ≤ j →
       (rows.get ⟨j, hj⟩).rating_value ≤ (rows.get ⟨i, hi⟩).rating_value) ∧
    (∀ i (hi : i < rows.length), (rows.get ⟨i, hi⟩).row_id = i + 1) ∧
    (∀ r ∈ rows, ∃ p, p ∈ players ∧ p.banned = false ∧ 0 < p.rating ∧ r = mkRow r.row_id p) := by
  unfold leaderboardRows at h
  obtain ⟨hlen, hget⟩ := mkRows_eq _ _ _ h
  have hsorted : List.Sorted ratingGE
      (List.insertionSort ratingGE (rankablePlayers players)) :=
    List.sorted_insertionSort ratingGE (rankablePlayers players)
  have hmemS : ∀ q, q ∈ List.insertionSort ratingGE (rankablePlayers players) →
      q ∈ players ∧ q.banned = false ∧ 0 < q.rating := by
    intro q hq
    have hq2 : q ∈ rankablePlayers players :=
      (List.perm_insertionSort ratingGE (rankablePlayers players)).mem_iff.mp hq
    unfold rankablePlayers at hq2
    rw [List.mem_filter] at hq2
    obtain ⟨hmem, hpred⟩ := hq2
    simp only [Bool.and_eq_true, decide_eq_true_eq, Bool.not_eq_true'] at hpred
    exact ⟨hmem, hpred.2, hpred.1⟩
  refine ⟨?_, ?_, ?_⟩
  · intro i j hi hj hij
    rcases eq_or_lt_of_le hij with rfl | hlt
    · exact le_refl _
    · have hip : i < (List.insertionSort ratingGE (rankablePlayers players)).length := by
        rw [← hlen]; exact hi
      have hjp : j < (List.insertionSort ratingGE (rankablePlayers players)).length := by
        rw [← hlen]; exact hj
      have hrel := List.Sorted.rel_get_of_lt hsorted
        (a := ⟨i, hip⟩) (b := ⟨j, hjp⟩) (by exact hlt)
      rw [hget i hi hip, hget j hj hjp]
      exact hrel
  · intro i hi
    have hip : i < (List.insertionSort ratingGE (rankablePlayers players)).length := by
      rw [← hlen]; exact hi
    rw [hget i hi hip]
    simp [mkRow]
    omega
  · intro r hr
    obtain ⟨⟨i, hi⟩, rfl⟩ := List.mem_iff_get.mp hr
    have hip : i < (List.insertionSort ratingGE (rankablePlayers players)).length := by
      rw [← hlen]; exact hi
    obtain ⟨hmem, hban, hrat⟩ :=
      hmemS _ (List.get_mem (List.insertionSort ratingGE (rankablePlayers players)) i hip)
    refine ⟨_, hmem, hban, hrat, ?_⟩
    rw [hget i hi hip]
    simp [mkRow]

/-- C7 witness: the amended ordering facts evaluated on the two-player tie
ledger: the rank-1 row dominates the rank-2 row in rating and carries
`row_id = 1`, and the rank-2 row comes from a rankable input player. -/
theorem C7_witness :
    (mkRow 2 tiePlayerB).rating_value ≤ (mkRow 1 tiePlayerA).rating_value ∧
    (mkRow 1 tiePlayerA).row_id = 1 ∧
    (∃ p, p ∈ [tiePlayerA, tiePlayerB] ∧ p.banned = false ∧ 0 < p.rating ∧
      mkRow 2 tiePlayerB = mkRow (mkRow 2 tiePlayerB).row_id p) := by
  have h := C7_leaderboard_order [tiePlayerA, tiePlayerB]
    [mkRow 1 tiePlayerA, mkRow 2 tiePlayerB] leaderboard_tie_rows
  exact ⟨h.1 0 1 (by norm_num) (by norm_num) (by omega),
    h.2.1 0 (by norm_num),
    h.2.2 (mkRow 2 tiePlayerB) (by norm_num)⟩

/-! ## Per-player chronological match log (`player_games_js`, claim C5)

One row of the `player_games_js` query: an outcome joined with both
participants' names and banned flags, walked most-recent-first.  The loop
determines the viewed player's slot, `break`s out of the whole loop when the
viewed player's own banned flag is set on the row, skips rows where the
player is in neither slot (the `XXX shouldn't happen` guard), and otherwise
appends one game entry, redacting the opponent and replay link when the
opponent is banned. -/

structure MatchRow where
  hash : String
  end_time : String
  duration : String
  profile_id0 : ℕ
  profile_id1 : ℕ
  diff0 : ℚ
  diff1 : ℚ
  p0_name : String
  p1_name : String
  p0_banned : Bool
  p1_banned : Bool
  map_title : List Char
deriving DecidableEq

structure Opponent where
  name : String
deriving DecidableEq

structure Replay where
  hash : String
  supports_analysis : Bool
deriving DecidableEq

structure Game where
  date : String
  opponent : Option Opponent
  map : List Char
  outcome_desc : String
  outcome_diff : ℚ
  duration : String
  replay : Option Replay
deriving DecidableEq

/-- The viewed player's own banned flag on a row (`banned` in the loop
body); `false` on rows where the player is in neither slot. -/
def ownBanned (pid : ℕ) (m : MatchRow) : Bool :=
  if m.profile_id0 = pid then m.p0_banned
  else if m.profile_id1 = pid then m.p1_banned
  else false

/-- The loop body of `player_games_js`.  `supportsAnalysis` is the mod
registry capability used for the replay link. -/
def playerGames (supportsAnalysis : Bool) (pid : ℕ) : List MatchRow → List Game
  | [] => []
  | m :: ms =>
    if m.profile_id0 = pid then
      if m.p0_banned then []
      else
        { date := m.end_time
          opponent := if m.p1_banned then none else some { name := m.p1_name }
          map := strippedMapName m.map_title
          outcome_desc := "Won"
          outcome_diff := m.diff0
          duration := m.duration
          replay := if m.p1_banned then none
            else some { hash := m.hash, supports_analysis := supportsAnalysis } } ::
          playerGames supportsAnalysis pid ms
    else if m.profile_id1 = pid then
      if m.p1_banned then []
      else
        { date := m.end_time
          opponent := if m.p0_banned then none else some { name := m.p0_name }
          map := strippedMapName m.map_title
          outcome_desc := "Lost"
          outcome_diff := m.diff1
          duration := m.duration
          replay := if m.p0_banned then none
            else some { hash := m.hash, supports_analysis := supportsAnalysis } } ::
          playerGames supportsAnalysis pid ms
    else
      playerGames supportsAnalysis pid ms

/-- C5: walking the match rows most-recent-first, a row on which the viewed
player is marked banned terminates the entire walk, leaving exactly the
entries accumulated on the prefix before that row; consequently a player
banned on every row yields zero entries regardless of the number of rows. -/
theorem C5_ban_truncation (supportsAnalysis : Bool) (pid : ℕ) :
    (∀ pre r0 post, (∀ r ∈ pre, ownBanned pid r = false) →
       (r0.profile_id0 = pid ∨ r0.profile_id1 = pid) → ownBanned pid r0 = true →
       playerGames supportsAnalysis pid (pre ++ r0 :: post) =
         playerGames supportsAnalysis pid pre) ∧
    (∀ rows, (∀ r ∈ rows, (r.profile_id0 = pid ∨ r.profile_id1 = pid) ∧
        ownBanned pid r = true) →
       playerGames supportsAnalysis pid rows = []) := by
  constructor
  · intro pre
    induction pre with
    | nil =>
      intro r0 post _ hpart hban
      rw [List.nil_append]
      unfold ownBanned at hban
      rcases hpart with h0 | h1
      · rw [if_pos h0] at hban
        simp only [playerGames, if_pos h0, if_pos hban]
      · by_cases h0 : r0.profile_id0 = pid
        · rw [if_pos h0] at hban
          simp only [playerGames, if_pos h0, if_pos hban]
        · rw [if_neg h0, if_pos h1] at hban
          simp only [playerGames, if_neg h0, if_pos h1, if_pos hban]
    | cons r pre ih =>
      intro r0 post hpre hpart hban
      have hr : ownBanned pid r = false := hpre r (List.mem_cons_self r pre)
      have hpre2 : ∀ x ∈ pre, ownBanned pid x = false :=
        fun x hx => hpre x (List.mem_cons_of_mem r hx)
      have ihr := ih r0 post hpre2 hpart hban
      rw [List.cons_append]
      unfold ownBanned at hr
      by_cases h0 : r.profile_id0 = pid
      · rw [if_pos h0] at hr
        simp only [playerGames, if_pos h0, hr]
        simp only [Bool.false_eq_true, if_false]
        rw [ihr]
      · by_cases h1 : r.profile_id1 = pid
        · rw [if_neg h0, if_pos h1] at hr
          simp only [playerGames, if_neg h0, if_pos h1, hr]
          simp only [Bool.false_eq_true, if_false]
          rw [ihr]
        · simp only [playerGames, if_neg h0, if_neg h1]
          exact ihr
  · intro rows
    induction rows with
    | nil => intro _; rfl
    | cons r rows ih =>
      intro h
      obtain ⟨hpart, hban⟩ := h r (List.mem_cons_self r rows)
      unfold ownBanned at hban
      rcases hpart with h0 | h1
      · rw [if_pos h0] at hban
        simp only [playerGames, if_pos h0, if_pos hban]
      · by_cases h0 : r.profile_id0 = pid
        · rw [if_pos h0] at hban
          simp only [playerGames, if_pos h0, if_pos hban]
        · rw [if_neg h0, if_pos h1] at hban
          simp only [playerGames, if_neg h0, if_pos h1, if_pos hban]

/-- A row on which the viewed player (id 1) is participant 0 and banned. -/
def bannedRow : MatchRow :=
  { hash := "abc123"
    end_time := "2024-03-01 10:00:00"
    duration := "07:12"
    profile_id0 := 1
    profile_id1 := 2
    diff0 := 13
    diff1 := -13
    p0_name := "Viewed"
    p1_name := "Opponent"
    p0_banned := true
    p1_banned := false
    map_title := [] }

/-- C5 witness: a single-row ledger on which player 1 is banned yields an
empty match log. -/
theorem C5_witness : playerGames false 1 [bannedRow] = [] := by
  apply (C5_ban_truncation false 1).2 [bannedRow]
  intro r hr
  rw [List.mem_singleton] at hr
  subst hr
  exact ⟨Or.inl rfl, rfl⟩

/-! ## Outcome rows and the per-player map histogram
(`_get_player_map_stats`, claim C9)

An `outcomes` table row.  `end_date` is the calendar date of the row's
`end_time`, as a day ordinal (the value SQLite's `date(end_time)` groups
by); the analytics below only ever use the end time at day resolution. -/

structure Outcome where
  hash : String
  profile_id0 : ℕ
  profile_id1 : ℕ
  rating_0 : ℚ
  rating_1 : ℚ
  selected_faction_0 : String
  selected_faction_1 : String
  map_title : String
  end_date : ℕ
deriving DecidableEq

/-- `SELECT COUNT(*), key FROM ... GROUP BY key`: one `(key, count)` row per
distinct key. -/
def groupCount (keys : List String) : List (String × ℕ) :=
  keys.dedup.map (fun k => (k, keys.count k))

structure MapStats where
  names : List String
  win_data : List ℤ
  loss_data : List ℤ
deriving DecidableEq

/-- The `hist_wins` dict: outcomes won by the player (participant-0 role),
grouped by map title. -/
def histWins (pid : ℕ) (outs : List Outcome) : List (String × ℕ) :=
  groupCount ((outs.filter (fun o => o.profile_id0 = pid)).map (fun o => o.map_title))

/-- The `hist_losses` dict: outcomes lost by the player (participant-1
role), grouped by map title, with negated counts (`-COUNT(*)`). -/
def histLosses (pid : ℕ) (outs : List Outcome) : List (String × ℤ) :=
  (groupCount ((outs.filter (fun o => o.profile_id1 = pid)).map (fun o => o.map_title))).map
    (fun p => (p.1, -(p.2 : ℤ)))

/-- `sorted(list(set(hist_wins) | set(hist_losses)))`. -/
def mapNames (pid : ℕ) (outs : List Outcome) : List String :=
  List.insertionSort (fun a b => a ≤ b)
    (((histWins pid outs).map Prod.fst ++ (histLosses pid outs).map Prod.fst).dedup)

/-- `_get_player_map_stats`: union of map names, win counts and negated
loss counts, `.get(m, 0)`-zero-filled where a map is absent from one side. -/
def playerMapStats (pid : ℕ) (outs : List Outcome) : MapStats :=
  { names := mapNames pid outs
    win_data := (mapNames pid outs).map
      (fun nm => ((((histWins pid outs).lookup nm).getD 0 : ℕ) : ℤ))
    loss_data := (mapNames pid outs).map
      (fun nm => ((histLosses pid outs).lookup nm).getD 0) }

theorem lookup_none_of_fst_ne {β : Type} :
    ∀ (l : List (String × β)) (k : String), (∀ p ∈ l, p.1 ≠ k) → List.lookup k l = none := by
  intro l
  induction l with
  | nil => intro k _; rfl
  | cons p l ih =>
    intro k hk
    obtain ⟨a, b⟩ := p
    have hne : (k == a) = false := by
      simp only [beq_eq_false_iff_ne, ne_eq]
      intro heq
      exact hk (a, b) (List.mem_cons_self _ _) heq.symm
    simp only [List.lookup, hne]
    exact ih k (fun q hq => hk q (List.mem_cons_of_mem _ hq))

theorem lookup_mem_values {α β : Type} [BEq α] (l : List (α × β)) :
    ∀ k v, List.lookup k l = some v → v ∈ l.map Prod.snd := by
  induction l with
  | nil => intro k v h; cases h
  | cons p l ih =>
    intro k v h
    obtain ⟨a, b⟩ := p
    simp only [List.lookup] at h
    cases hka : (k == a) with
    | true =>
      rw [hka] at h
      injection h with h2
      rw [← h2]
      simp
    | false =>
      rw [hka] at h
      exact List.mem_cons_of_mem _ (ih k v h)

theorem groupCount_fst_mem {keys : List String} {p : String × ℕ} (hp : p ∈ groupCount keys) :
    p.1 ∈ keys := by
  unfold groupCount at hp
  obtain ⟨k, hk, heq⟩ := List.mem_map.mp hp
  rw [← heq]
  exact List.mem_dedup.mp hk

/-- C9: in the per-player map histogram, the win-count and loss-count lists
run parallel to the name list, every win count is `≥ 0`, every loss count is
`≤ 0` (losses are reported negated), and a map with no outcome on one side
gets the `.get(m, 0)` default `0` on that side. -/
theorem C9_map_histogram (pid : ℕ) (outs : List Outcome) :
    (playerMapStats pid outs).win_data.length = (playerMapStats pid outs).names.length ∧
    (playerMapStats pid outs).loss_data.length = (playerMapStats pid outs).names.length ∧
    (∀ x ∈ (playerMapStats pid outs).win_data, 0 ≤ x) ∧
    (∀ x ∈ (playerMapStats pid outs).loss_data, x ≤ 0) ∧
    (∀ nm ∈ (playerMapStats pid outs).names,
      (nm ∉ (outs.filter (fun o => o.profile_id0 = pid)).map (fun o => o.map_title) →
        ((histWins pid outs).lookup nm).getD 0 = 0) ∧
      (nm ∉ (outs.filter (fun o => o.profile_id1 = pid)).map (fun o => o.map_title) →
        ((histLosses pid outs).lookup nm).getD 0 = 0)) := by
  refine ⟨by simp [playerMapStats], by simp [playerMapStats], ?_, ?_, ?_⟩
  · intro x hx
    simp only [playerMapStats] at hx
    obtain ⟨nm, _, heq⟩ := List.mem_map.mp hx
    rw [← heq]
    exact Int.natCast_nonneg _
  · intro x hx
    simp only [playerMapStats] at hx
    obtain ⟨nm, _, heq⟩ := List.mem_map.mp hx
    rw [← heq]
    cases hl : (histLosses pid outs).lookup nm with
    | none => simp
    | some v =>
      simp only [Option.getD_some]
      have hv := lookup_mem_values _ _ _ hl
      unfold histLosses at hv
      rw [List.map_map] at hv
      obtain ⟨q, _, heq2⟩ := List.mem_map.mp hv
      simp only [Function.comp] at heq2
      rw [← heq2]
      simp
  · intro nm _
    constructor
    · intro habs
      have hnone : (histWins pid outs).lookup nm = none := by
        apply lookup_none_of_fst_ne
        intro p hp heq
        exact habs (heq ▸ groupCount_fst_mem hp)
      rw [hnone]
      rfl
    · intro habs
      have hnone : (histLosses pid outs).lookup nm = none := by
        apply lookup_none_of_fst_ne
        intro p hp heq
        unfold histLosses at hp
        obtain ⟨q, hq, heq2⟩ := List.mem_map.mp hp
        have hq1 : q.1 ∈ (outs.filter (fun o => o.profile_id1 = pid)).map
            (fun o => o.map_title) := groupCount_fst_mem hq
        rw [← heq2] at heq
        exact habs (heq ▸ hq1)
      rw [hnone]
      rfl

/-- An outcome won by player 3 on map `"Ruins"`. -/
def ruinsOutcome : Outcome :=
  { hash := "r1"
    profile_id0 := 3
    profile_id1 := 4
    rating_0 := 10
    rating_1 := 9
    selected_faction_0 := "Allies"
    selected_faction_1 := "Soviet"
    map_title := "Ruins"
    end_date := 738886 }

/-- C9 witness: for player 3 with the single won outcome on `"Ruins"`, the
win count 1 is nonnegative and the loss side of `"Ruins"` is zero-filled. -/
theorem C9_witness :
    (0 : ℤ) ≤ 1 ∧ ((histLosses 3 [ruinsOutcome]).lookup "Ruins").getD 0 = 0 := by
  have h := C9_map_histogram 3 [ruinsOutcome]
  refine ⟨?_, ?_⟩
  · exact h.2.2.1 1 (by decide)
  · exact (h.2.2.2.2 "Ruins" (by decide)).2 (by decide)

/-! ## Activity timeline (`_get_activity_stats`, claim C6) -/

def endDates (outs : List Outcome) : List ℕ := outs.map (fun o => o.end_date)

/-- `SELECT date(end_time) AS date, COUNT(*) AS count FROM outcomes
GROUP BY date ORDER BY date ASC`: one `(date, count)` row per distinct end
date, ascending. -/
def outcomesPerDay (outs : List Outcome) : List (ℕ × ℕ) :=
  ((List.insertionSort (fun a b => a ≤ b) (endDates outs)).dedup).map
    (fun d => (d, (endDates outs).count d))

structure ActivityStats where
  dates : List ℕ
  data : List ℕ
  games_per_day : ℚ
deriving DecidableEq

/-- `start_date = outcomes_per_day[0]['date']`. -/
def startDate (outs : List Outcome) : ℕ := ((outcomesPerDay outs).headD (0, 0)).1

/-- `all_days`: every day from `start` through `today` inclusive
(`range(nb_days + 1)` with `nb_days = (end_date - start_date).days`; empty
when `today` is before the start). -/
def filledDays (d0 today : ℕ) : List ℕ :=
  (List.range (((today : ℤ) - (d0 : ℤ) + 1).toNat)).map (fun n => d0 + n)

/-- `records`: `db_records.get(d, 0)` over the filled range. -/
def activityRecords (outs : List Outcome) (today : ℕ) : List ℕ :=
  (filledDays (startDate outs) today).map
    (fun d => ((outcomesPerDay outs).lookup d).getD 0)

/-- `_get_activity_stats`; `none` models the explicit
`dict(dates=None, data=None, games_per_day=0)` empty-ledger result. -/
def activityStats (outs : List Outcome) (today : ℕ) : Option ActivityStats :=
  if outcomesPerDay outs = [] then none
  else some
    { dates := filledDays (startDate outs) today
      data := activityRecords outs today
      games_per_day := ((activityRecords outs today).sum : ℚ) /
        ((activityRecords outs today).length : ℚ) }

theorem sum_map_add {α : Type} (l : List α) (f g : α → ℕ) :
    (l.map (fun a => f a + g a)).sum = (l.map f).sum + (l.map g).sum := by
  induction l with
  | nil => rfl
  | cons a l ih =>
    simp only [List.map_cons, List.sum_cons, ih]
    omega

theorem sum_map_zero {α : Type} (l : List α) (f : α → ℕ) (h : ∀ a ∈ l, f a = 0) :
    (l.map f).sum = 0 := by
  induction l with
  | nil => rfl
  | cons a l ih =>
    simp only [List.map_cons, List.sum_cons]
    rw [h a (List.mem_cons_self a l), ih (fun x hx => h x (List.mem_cons_of_mem a hx))]

theorem sum_map_indicator {L : List ℕ} (e : ℕ) (hnd : L.Nodup) (he : e ∈ L) :
    (L.map (fun d => if d = e then 1 else 0)).sum = 1 := by
  induction L with
  | nil => cases he
  | cons a L ih =>
    obtain ⟨hna, hndL⟩ := List.nodup_cons.mp hnd
    simp only [List.map_cons, List.sum_cons]
    rcases List.mem_cons.mp he with heq | he2
    · subst heq
      rw [if_pos rfl]
      have hz : (L.map (fun d => if d = e then 1 else 0)).sum = 0 := by
        apply sum_map_zero
        intro d hd
        apply if_neg
        intro hh
        rw [hh] at hd
        exact hna hd
      rw [hz]
    · have hne2 : a ≠ e := fun hh => hna (by rw [hh]; exact he2)
      rw [if_neg hne2, ih hndL he2]

theorem sum_map_count_eq (L : List ℕ) (hnd : L.Nodup) :
    ∀ ends : List ℕ, (∀ e ∈ ends, e ∈ L) →
      (L.map (fun d => ends.count d)).sum = ends.length := by
  intro ends
  induction ends with
  | nil =>
    intro _
    rw [sum_map_zero L _ (fun a _ => List.count_nil a)]
    rfl
  | cons e es ih =>
    intro hcov
    have hcov2 : ∀ x ∈ es, x ∈ L := fun x hx => hcov x (List.mem_cons_of_mem e hx)
    have hL : ∀ d ∈ L, (e :: es).count d = es.count d + (if d = e then 1 else 0) := by
      intro d _
      rw [List.count_cons]
      by_cases hde : d = e
      · subst hde
        simp
      · simp [hde, Ne.symm hde]
    rw [List.map_congr_left hL, sum_map_add, ih hcov2,
      sum_map_indicator e hnd (hcov e (List.mem_cons_self e es))]
    simp

theorem lookup_map_pair_eq {β : Type} (f : ℕ → β) :
    ∀ (D : List ℕ) (x : ℕ),
      List.lookup x (D.map (fun d => (d, f d))) = if x ∈ D then some (f x) else none := by
  intro D
  induction D with
  | nil => intro x; simp
  | cons d D ih =>
    intro x
    rw [List.map_cons]
    by_cases hx : x = d
    · subst hx
      simp [List.lookup]
    · have hne : (x == d) = false := by simp [hx]
      simp only [List.lookup, hne]
      rw [ih x]
      by_cases hmem : x ∈ D
      · rw [if_pos hmem, if_pos (List.mem_cons_of_mem d hmem)]
      · rw [if_neg hmem, if_neg (fun hh => by
          rcases List.mem_cons.mp hh with h1 | h1
          · exact hx h1
          · exact hmem h1)]

/-- C6: for a nonempty ledger whose outcomes all end on or before `today`,
the activity timeline succeeds and reports: the consecutive calendar dates
from the earliest recorded date through `today` inclusive; a parallel count
list whose entry for each date is the number of outcomes on that date (zero
where no outcome exists, not omitted); and a mean equal to the total number
of outcomes divided by the number of days in the filled range. -/
theorem C6_activity_timeline (outs : List Outcome) (today : ℕ)
    (hne : outs ≠ []) (hle : ∀ o ∈ outs, o.end_date ≤ today) :
    ∃ stats, activityStats outs today = some stats ∧
      startDate outs ∈ endDates outs ∧
      (∀ d ∈ endDates outs, startDate outs ≤ d) ∧
      stats.dates = (List.range (today + 1 - startDate outs)).map
        (fun n => startDate outs + n) ∧
      stats.data.length = stats.dates.length ∧
      (∀ i (hi : i < stats.data.length),
        stats.data.get ⟨i, hi⟩ = (endDates outs).count (startDate outs + i)) ∧
      stats.games_per_day = ((outs.length : ℚ)) / ((stats.dates.length : ℚ)) := by
  have h1 : endDates outs ≠ [] := by
    unfold endDates
    simp only [ne_eq, List.map_eq_nil]
    exact hne
  have hperm := List.perm_insertionSort (fun a b : ℕ => a ≤ b) (endDates outs)
  have h3 : List.insertionSort (fun a b : ℕ => a ≤ b) (endDates outs) ≠ [] := by
    intro hcon
    rw [hcon] at hperm
    exact h1 (List.Perm.nil_eq hperm).symm
  have h4 : (List.insertionSort (fun a b : ℕ => a ≤ b) (endDates outs)).dedup ≠ [] := by
    intro hcon
    exact h3 ((List.dedup_eq_nil _).mp hcon)
  obtain ⟨d0, D2, hD⟩ := List.exists_cons_of_ne_nil h4
  have hsortS : List.Sorted (fun a b : ℕ => a ≤ b)
      (List.insertionSort (fun a b : ℕ => a ≤ b) (endDates outs)) :=
    List.sorted_insertionSort _ _
  have hsortD : List.Sorted (fun a b : ℕ => a ≤ b)
      (List.insertionSort (fun a b : ℕ => a ≤ b) (endDates outs)).dedup :=
    List.Pairwise.sublist (List.dedup_sublist _) hsortS
  have hmemD : ∀ x : ℕ, x ∈ (List.insertionSort (fun a b : ℕ => a ≤ b) (endDates outs)).dedup ↔
      x ∈ endDates outs := by
    intro x
    rw [List.mem_dedup]
    exact hperm.mem_iff
  have hopd : outcomesPerDay outs =
      (d0, (endDates outs).count d0) :: D2.map (fun d => (d, (endDates outs).count d)) := by
    unfold outcomesPerDay
    rw [hD, List.map_cons]
  have hstart : startDate outs = d0 := by
    unfold startDate
    rw [hopd]
    rfl
  have hd0mem : d0 ∈ endDates outs := (hmemD d0).mp (hD ▸ List.mem_cons_self d0 D2)
  have hd0min : ∀ d ∈ endDates outs, d0 ≤ d := by
    intro d hd
    have hdD := (hmemD d).mpr hd
    rw [hD] at hdD
    rcases List.mem_cons.mp hdD with heq | hd2
    · rw [heq]
    · rw [hD] at hsortD
      exact (List.sorted_cons.mp hsortD).1 d hd2
  have hd0today : d0 ≤ today := by
    obtain ⟨o, ho, heq⟩ := List.mem_map.mp hd0mem
    rw [← heq]
    exact hle o ho
  have hne2 : outcomesPerDay outs ≠ [] := by
    rw [hopd]
    exact List.cons_ne_nil _ _
  have htoNat : (((today : ℤ) - (d0 : ℤ) + 1)).toNat = today + 1 - d0 := by omega
  have hdates : filledDays (startDate outs) today =
      (List.range (today + 1 - startDate outs)).map (fun n => startDate outs + n) := by
    rw [hstart]
    unfold filledDays
    rw [htoNat]
  have hlookup : ∀ x : ℕ, ((outcomesPerDay outs).lookup x).getD 0 = (endDates outs).count x := by
    intro x
    unfold outcomesPerDay
    rw [lookup_map_pair_eq (fun d => (endDates outs).count d) _ x]
    by_cases hx : x ∈ (List.insertionSort (fun a b : ℕ => a ≤ b) (endDates outs)).dedup
    · rw [if_pos hx]
      rfl
    · rw [if_neg hx]
      have : x ∉ endDates outs := fun hc => hx ((hmemD x).mpr hc)
      rw [List.count_eq_zero.mpr this]
      rfl
  have hreclen : (activityRecords outs today).length = (filledDays (startDate outs) today).length := by
    unfold activityRecords
    rw [List.length_map]
  have hfillget : ∀ i (hi : i < (filledDays (startDate outs) today).length),
      (filledDays (startDate outs) today).get ⟨i, hi⟩ = startDate outs + i := by
    intro i hi
    unfold filledDays at hi ⊢
    rw [List.get_map]
    congr 1
    exact List.get_range _ _
  have hdataget : ∀ i (hi : i < (activityRecords outs today).length),
      (activityRecords outs today).get ⟨i, hi⟩ =
        (endDates outs).count (startDate outs + i) := by
    intro i hi
    have hi2 : i < (filledDays (startDate outs) today).length := by
      rw [← hreclen]
      exact hi
    unfold activityRecords
    rw [List.get_map, hlookup]
    congr 1
    exact hfillget i hi2
  have hfillnodup : (filledDays (startDate outs) today).Nodup := by
    unfold filledDays
    apply List.Nodup.map
    · intro a b hab
      have hab2 : startDate outs + a = startDate outs + b := hab
      omega
    · exact List.nodup_range _
  have hfillcov : ∀ e ∈ endDates outs, e ∈ filledDays (startDate outs) today := by
    intro e he
    have h5 : d0 ≤ e := hd0min e he
    have h6 : e ≤ today := by
      obtain ⟨o, ho, heq⟩ := List.mem_map.mp he
      rw [← heq]
      exact hle o ho
    unfold filledDays
    rw [hstart]
    apply List.mem_map.mpr
    refine ⟨e - d0, ?_, by omega⟩
    rw [List.mem_range]
    omega
  have hfilleq : activityRecords outs today =
      (filledDays (startDate outs) today).map (fun d => (endDates outs).count d) := by
    unfold activityRecords
    apply List.map_congr_left
    intro d _
    exact hlookup d
  have hsum : (activityRecords outs today).sum = outs.length := by
    rw [hfilleq, sum_map_count_eq _ hfillnodup (endDates outs) hfillcov]
    unfold endDates
    rw [List.length_map]
  refine ⟨{ dates := filledDays (startDate outs) today
            data := activityRecords outs today
            games_per_day := ((activityRecords outs today).sum : ℚ) /
              ((activityRecords outs today).length : ℚ) },
    ?_, ?_, ?_, ?_, ?_, ?_, ?_⟩
  · unfold activityStats
    rw [if_neg hne2]
  · rw [hstart]
    exact hd0mem
  · intro d hd
    rw [hstart]
    exact hd0min d hd
  · exact hdates
  · exact hreclen
  · exact hdataget
  · show ((activityRecords outs today).sum : ℚ) / ((activityRecords outs today).length : ℚ) =
      ((outs.length : ℚ)) / (((filledDays (startDate outs) today).length : ℚ))
    rw [hsum, hreclen]

/-- Outcome ending on 2024-01-01 (day ordinal 738886). -/
def oJan1 : Outcome :=
  { hash := "g1"
    profile_id0 := 1
    profile_id1 := 2
    rating_0 := 1
    rating_1 := 1
    selected_faction_0 := "Allies"
    selected_faction_1 := "Soviet"
    map_title := "A"
    end_date := 738886 }

/-- Outcome ending on 2024-01-04 (day ordinal 738889). -/
def oJan4 : Outcome :=
  { hash := "g2"
    profile_id0 := 1
    profile_id1 := 2
    rating_0 := 1
    rating_1 := 1
    selected_faction_0 := "Allies"
    selected_faction_1 := "Soviet"
    map_title := "A"
    end_date := 738889 }

/-- C6 witness: outcomes only on 2024-01-01 and 2024-01-04 with today =
2024-01-04 yield the 4 consecutive dates, counts `[1, 0, 0, 1]` and mean
`0.5`. -/
theorem C6_witness :
    ∃ stats, activityStats [oJan1, oJan4] 738889 = some stats ∧
      stats.dates = [738886, 738887, 738888, 738889] ∧
      stats.data = [1, 0, 0, 1] ∧
      stats.games_per_day = 1/2 := by
  obtain ⟨stats, heq, hmem, hmin, hdates, hlen, hget, hmean⟩ :=
    C6_activity_timeline [oJan1, oJan4] 738889 (by decide) (by decide)
  have hstart : startDate [oJan1, oJan4] = 738886 := by decide
  rw [hstart] at hdates hget
  have hdates2 : stats.dates = [738886, 738887, 738888, 738889] := by
    rw [hdates]
    decide
  have hdata : stats.data = [1, 0, 0, 1] := by
    apply List.ext_get
    · rw [hlen, hdates2]
      rfl
    · intro n h1 h2
      rw [hget n h1]
      have hgd : ([1, 0, 0, 1] : List ℕ).get ⟨n, h2⟩ = ([1, 0, 0, 1] : List ℕ).getD n 0 :=
        (List.getD_eq_get _ 0 h2).symm
      rw [hgd]
      have hn : n < 4 := by simpa using h2
      interval_cases n <;> decide
  have hmean2 : stats.games_per_day = 1/2 := by
    rw [hmean, hdates2]
    norm_num
  exact ⟨stats, heq, hdates2, hdata, hmean2⟩

/-! ## Global faction histogram (`_get_global_faction_stats`, claim C2)

The function runs one `GROUP BY selected_faction_i` query per participant
slot and merges the two result dicts with `hist.update(...)`:  Python's
`dict.update` OVERWRITES the value of a key that is already present (it
does not add counts). -/

/-- Python `dict.update` on association lists with unique keys: existing
keys keep their position but take the value from `e` when present there;
keys only in `e` are appended in `e`'s order. -/
def dictUpdate {β : Type} (d e : List (String × β)) : List (String × β) :=
  d.map (fun p => (p.1, (e.lookup p.1).getD p.2)) ++
    e.filter (fun p => (d.lookup p.1).isNone)

/-- `_get_global_faction_stats`'s hist after the loop
`for i in range(2): hist.update({faction: count})`. -/
def globalFactionHist (outs : List Outcome) : List (String × ℕ) :=
  dictUpdate
    (dictUpdate [] (groupCount (outs.map (fun o => o.selected_faction_0))))
    (groupCount (outs.map (fun o => o.selected_faction_1)))

/-- The number of outcomes in which the slot-0 participant selected `f`. -/
def slot0Count (outs : List Outcome) (f : String) : ℕ :=
  (outs.filter (fun o => o.selected_faction_0 = f)).length

/-- The number of outcomes in which the slot-1 participant selected `f`. -/
def slot1Count (outs : List Outcome) (f : String) : ℕ :=
  (outs.filter (fun o => o.selected_faction_1 = f)).length

/-- An outcome in which both participants selected the same faction. -/
def mirrorOutcome : Outcome :=
  { hash := "m1"
    profile_id0 := 1
    profile_id1 := 2
    rating_0 := 1
    rating_1 := 1
    selected_faction_0 := "Soviet"
    selected_faction_1 := "Soviet"
    map_title := "B"
    end_date := 738886 }

/-- C2, failing input: for the single outcome in which both participants
selected `"Soviet"`, the claim demands a reported count of
`slot0 + slot1 = 2`, but `hist.update` lets the slot-1 dict overwrite the
slot-0 entry, so the code reports `1`. -/
theorem C2_update_overwrites :
    (List.lookup "Soviet" (globalFactionHist [mirrorOutcome])).getD 0 = 1 ∧
    slot0Count [mirrorOutcome] "Soviet" + slot1Count [mirrorOutcome] "Soviet" = 2 := by
  constructor
  · decide
  · decide

/-! ## Player faction histogram (`_get_player_faction_stats`, claim C3) -/

/-- The rows of the player faction query: the player's own selected faction
per outcome involving the player, grouped with counts (the query's
`COUNT(*)/2` cancels the join that duplicates each outcome once per
participant).  A player with zero matches yields no rows. -/
def playerFactionHist (pid : ℕ) (outs : List Outcome) : List (String × ℕ) :=
  groupCount
    ((outs.filter (fun o => decide (o.profile_id0 = pid) || decide (o.profile_id1 = pid))).map
      (fun o => if o.profile_id0 = pid then o.selected_faction_0 else o.selected_faction_1))

structure FactionStats where
  names : List String
  data : List ℕ
  total : ℕ
deriving DecidableEq

/-- `_get_player_faction_stats` after the query:
`faction_names, faction_data = zip(*hist)` raises `ValueError` when `hist`
is empty (this function, unlike its global sibling, has no
`if not hist` guard), modelled as `none`.  The palette colors, which only
depend on `len(hist)`, are omitted. -/
def playerFactionStats (pid : ℕ) (outs : List Outcome) : Option FactionStats :=
  match playerFactionHist pid outs with
  | [] => none
  | h :: t => some
      { names := (h :: t).map Prod.fst
        data := (h :: t).map Prod.snd
        total := ((h :: t).map Prod.snd).sum }

/-- C3, failing input: a player id (42) with zero matches in the ledger —
both for an empty ledger and for a nonempty ledger not involving the player
— makes `_get_player_faction_stats` raise `ValueError` at the
`zip(*hist)` unpacking instead of returning an empty histogram. -/
theorem C3_zero_matches_raises :
    playerFactionStats 42 [] = none ∧
    playerFactionStats 42 [ruinsOutcome] = none := by
  constructor
  · rfl
  · decide

end Ladderweb
